import Mathlib

/-
Verification of the fact extractor in `src/analyzer/helper.cpp`.

The source is a clang-tooling helper with three emitters sharing a
process-wide deduplication set and an append-only output file:

  * `output_decl`            (lines 41-91)
  * `output_enum_values`     (lines 93-133)
  * `output_struct_relations`(lines 195-248)

and the recursive type-graph walker `collect_nested_structs`
(lines 135-193).

The clang/LLVM parsing engine is an external collaborator (spec sections 1
and 6) and is not reimplemented: declarations and types are modelled as the
closed views the helper reads from them (name, location, alias/underlying
type, record fields, enumerator bit patterns), and the helper's own control
flow is translated branch for branch.  The walker is embedded with an
explicit fuel parameter, one unit per recursive call of the source; the
stabilization theorem below shows the result is independent of the fuel
once it exceeds an explicit bound, which is the termination argument for
the source's recursion.
-/

/-- Lexicographic comparison of character lists; models the
`std::string` ordering used by `std::set<std::string>`. -/
def charListLt : List Char → List Char → Bool
  | [], [] => false
  | [], _ :: _ => true
  | _ :: _, [] => false
  | a :: as, b :: bs => if a < b then true else if b < a then false else charListLt as bs

/-- Lexicographic order on strings (the `std::set<std::string>` key order). -/
def strLt (a b : String) : Bool := charListLt a.data b.data

/-- Ordered insert-if-absent into a sorted duplicate-free list: models
`std::set<std::string>::insert`. -/
def insertStr (x : String) : List String → List String
  | [] => [x]
  | y :: ys => if strLt x y then x :: y :: ys else if x = y then y :: ys else y :: insertStr x ys

/-- The closed tagged view of the type representation consumed by
`collect_nested_structs` (spec section 6): pointer, array, elaborated
sugar, named alias (typedef) and record references; every other type
(scalar, function type, ...) is collapsed to `scalar` and contributes
nothing.  Record types refer to a record declaration by its index into an
environment list. -/
inductive CTy where
  | ptr (pointee : CTy)
  | arr (elem : CTy)
  | elaborated (named : CTy)
  | aliasTy (aliasName : String) (underlying : CTy)
  | record (idx : Nat)
  | scalar
  deriving DecidableEq

/-- The view of a clang `RecordDecl` read by the source: declared name
(`getNameAsString`), the typedef name recovered for anonymous records
(`getTypedefNameForAnonDecl`, `none` when null), the defining declaration
(`getDefinition`, `none` when null, otherwise an index into the
environment), the field types, and the origin-location data used by
`output_struct_relations`. -/
structure RecordInfo where
  name : String
  anonName : Option String
  defnIdx : Option Nat
  fields : List CTy
  fileEntryPath : Option String
  fallbackLoc : String
  line : Nat
  deriving DecidableEq

instance : Inhabited RecordInfo := ⟨⟨"", none, none, [], none, "", 0⟩⟩

abbrev RecordEnv := List RecordInfo

/-- Structural size of a type term: number of sugar layers plus one. -/
def tySize : CTy → Nat
  | .ptr t => tySize t + 1
  | .arr t => tySize t + 1
  | .elaborated t => tySize t + 1
  | .aliasTy _ t => tySize t + 1
  | .record _ => 1
  | .scalar => 1

/-- Largest `tySize` among a list of field types. -/
def fieldsMax (fs : List CTy) : Nat := fs.foldr (fun t m => max (tySize t) m) 0

/-- Largest field size of record `i` of the environment. -/
def mfs (env : RecordEnv) (i : Nat) : Nat := fieldsMax (env.getD i default).fields

/-- Largest field size over the whole environment. -/
def mfsAll (env : RecordEnv) : Nat :=
  (List.range env.length).foldr (fun i m => max (mfs env i) m) 0

/-- Remaining traversal budget: one entry plus the largest field size for
every record of the environment not yet in the visited set.  This is the
decreasing measure behind the visited-set termination guard. -/
def envR (env : RecordEnv) (v : List Nat) : Nat :=
  ((Finset.range env.length).filter (fun i => i ∉ v)).sum (fun i => 1 + mfs env i)

/-- A recursion-depth bound sufficient for every top-level walk launched by
`output_struct_relations`. -/
def emitFuel (env : RecordEnv) : Nat := mfsAll env + envR env []

/-- `QualType::getCanonicalType` (helper.cpp line 137).  The external
parsing engine is not reimplemented (spec sections 1 and 6); types are
modelled directly in the tagged form of `CTy`, with the sugar layers the
walker inspects afterwards (`ElaboratedType`, `TypedefType`) kept as
explicit constructors, so canonicalization is the identity on this
representation. -/
def getCanonicalType (t : CTy) : CTy := t

/-- Sequential walk over a list of field types, threading the `nested` and
`visited` sets exactly as the `for (const FieldDecl *field : ...)` loops of
the source do; `g` is the recursive call applied to each field type. -/
def walkList (g : CTy → List String → List Nat → List String × List Nat) :
    List CTy → List String → List Nat → List String × List Nat
  | [], nested, visited => (nested, visited)
  | t :: ts, nested, visited =>
      let p := g t nested visited
      walkList g ts p.1 p.2

/-- Nested-name resolution shared by the record-handling branches of
`collect_nested_structs`: the alias name when nonempty, else the record's
own name, else the anonymous-typedef name (empty when none exists). -/
def resolveNestedName (env : RecordEnv) (i : Nat) (aliasName : String) : String :=
  let info := env.getD i default
  let nm0 := if aliasName = "" then info.name else aliasName
  if nm0 = "" then info.anonName.getD "" else nm0

/-- Shared body of the two record-handling branches of
`collect_nested_structs`: the `TypedefType` branch (helper.cpp lines
156-172) enters with the typedef's name as `aliasName`, and the
`RecordType` branch (lines 177-192) enters with `aliasName = ""` so that
name resolution starts from the record's own name.  The record's name is
inserted into `nested` before the visited-set check; only the descent into
the definition's fields is guarded. -/
def recordStep (g : CTy → List String → List Nat → List String × List Nat)
    (env : RecordEnv) (i : Nat) (aliasName : String)
    (nested : List String) (visited : List Nat) : List String × List Nat :=
  let nm := resolveNestedName env i aliasName
  let nested1 := if nm = "" then nested else insertStr nm nested
  match (env.getD i default).defnIdx with
  | none => (nested1, visited)
  | some d =>
      if d ∈ visited then (nested1, visited)
      else walkList g (env.getD d default).fields nested1 (d :: visited)

/-- Fuel-indexed embedding of `collect_nested_structs` (helper.cpp lines
135-193).  One unit of fuel corresponds to one recursive call of the
source; `walkF_stab` shows the result no longer depends on the fuel once
it reaches `tySize qt + envR env visited`. -/
def walkF (env : RecordEnv) : Nat → CTy → List String → List Nat → List String × List Nat
  | 0 => fun _ nested visited => (nested, visited)
  | f + 1 => fun qt nested visited =>
      match getCanonicalType qt with
      | .ptr pointee => walkF env f pointee nested visited
      | .arr elem => walkF env f elem nested visited
      | .elaborated named => walkF env f named nested visited
      | .aliasTy aliasName underlying =>
          match underlying with
          | .record i => recordStep (walkF env f) env i aliasName nested visited
          | _ => walkF env f underlying nested visited
      | .record i => recordStep (walkF env f) env i "" nested visited
      | .scalar => (nested, visited)

/-- One output fact, the structured content of one serialized line. -/
inductive OutFact where
  | decl (name source filename : String) (aliasName : Option String)
  | enumFact (enumName : String) (values : List (String × Int))
  | relation (recordName : String) (nestedNames : List String)
  deriving DecidableEq

/-- The shared mutable state of the emitters: the process-wide
`existing_filenames` registry (helper.cpp line 9) and the sequence of
(file, fact) lines appended so far. -/
structure EmitState where
  existing : List String
  output : List (String × OutFact)
  deriving DecidableEq

/-- Origin-location string `<path>:<line>` built by all three emitters:
the real path of the file entry when one exists, otherwise the printed
source-location fallback, then the spelling line number. -/
def locString (fileEntryPath : Option String) (fallbackLoc : String) (line : Nat) : String :=
  (match fileEntryPath with
   | some p => p
   | none => fallbackLoc) ++ ":" ++ toString line

/-- Identity key of `output_decl` (helper.cpp lines 74-75):
`filename + "+" + name + "+" + output_file_name + "+" + alias_name`. -/
def make_key (filename nm target qualifier : String) : String :=
  filename ++ "+" ++ nm ++ "+" ++ target ++ "+" ++ qualifier

/-- Identity key of `output_enum_values` (line 114) and
`output_struct_relations` (line 225): no qualifier segment. -/
def make_key3 (filename nm target : String) : String :=
  filename ++ "+" ++ nm ++ "+" ++ target

/-- The view of a `NamedDecl` read by `output_decl`: resolved name, the
literal source text returned by `get_decl_code` (already degraded to `""`
on an invalid range), and the origin-location data. -/
structure DeclInfo where
  name : String
  source : String
  fileEntryPath : Option String
  fallbackLoc : String
  line : Nat
  deriving DecidableEq

/-- Origin-location string of a declaration (helper.cpp lines 61-73). -/
def declFilename (d : DeclInfo) : String := locString d.fileEntryPath d.fallbackLoc d.line

/-- `output_decl` (helper.cpp lines 41-91): build the identity key, skip
when already claimed, otherwise claim it and append one declaration fact;
the `alias` field is present exactly when `is_typedef` is set. -/
def output_decl (d : DeclInfo) (output_file_name : String) (is_typedef : Bool)
    (alias_name : String) (st : EmitState) : EmitState :=
  let key_name := make_key (declFilename d) d.name output_file_name alias_name
  if key_name ∈ st.existing then st
  else
    { existing := insertStr key_name st.existing,
      output := st.output ++
        [(output_file_name,
          OutFact.decl d.name d.source (declFilename d)
            (if is_typedef then some alias_name else none))] }

/-- An `llvm::APSInt` as exposed by `EnumConstantDecl::getInitVal`: a bit
width and the raw bit pattern. -/
structure APSIntV where
  width : Nat
  bits : Nat
  deriving DecidableEq

/-- `llvm::APSInt::getSExtValue` (helper.cpp line 122): two's-complement
decode of the bit pattern, i.e. sign extension of the stored value to the
full signed integer range. -/
def getSExtValue (a : APSIntV) : Int :=
  let m := a.bits % 2 ^ a.width
  if m < 2 ^ (a.width - 1) then (m : Int) else (m : Int) - 2 ^ a.width

/-- The view of an `EnumDecl` read by `output_enum_values`. -/
structure EnumInfo where
  name : String
  fileEntryPath : Option String
  fallbackLoc : String
  line : Nat
  enumerators : List (String × APSIntV)
  deriving DecidableEq

/-- Origin-location string of an enum declaration (helper.cpp lines 100-113). -/
def enumFilename (e : EnumInfo) : String := locString e.fileEntryPath e.fallbackLoc e.line

/-- `output_enum_values` (helper.cpp lines 93-133): no-op on an empty enum
name, otherwise dedup-check the key and append one enum fact mapping every
enumerator to its sign-extended value. -/
def output_enum_values (e : EnumInfo) (output_file_name : String) (st : EmitState) : EmitState :=
  if e.name = "" then st
  else
    let key_name := make_key3 (enumFilename e) e.name output_file_name
    if key_name ∈ st.existing then st
    else
      { existing := insertStr key_name st.existing,
        output := st.output ++
          [(output_file_name,
            OutFact.enumFact e.name (e.enumerators.map fun p => (p.1, getSExtValue p.2)))] }

/-- Origin-location string of a record declaration (helper.cpp lines 211-222). -/
def recFilename (r : RecordInfo) : String := locString r.fileEntryPath r.fallbackLoc r.line

/-- Name resolution of `output_struct_relations` (helper.cpp lines
200-207): the explicit `struct_name` argument, else the record's own name,
else the anonymous-typedef name. -/
def resolveStructName (info : RecordInfo) (struct_name : String) : String :=
  if struct_name ≠ "" then struct_name
  else if info.name ≠ "" then info.name
  else info.anonName.getD ""

/-- `output_struct_relations` (helper.cpp lines 195-248): resolve the
record name (no-op when unresolvable), dedup-check the key, seed the
visited set with the record itself, run the walker over every field, and
append one relation fact. -/
def output_struct_relations (env : RecordEnv) (i : Nat)
    (output_file_name struct_name : String) (st : EmitState) : EmitState :=
  let info := env.getD i default
  let structName := resolveStructName info struct_name
  if structName = "" then st
  else
    let key_name := make_key3 (recFilename info) structName output_file_name
    if key_name ∈ st.existing then st
    else
      let nested := (walkList (walkF env (emitFuel env)) info.fields [] [i]).1
      { existing := insertStr key_name st.existing,
        output := st.output ++ [(output_file_name, OutFact.relation structName nested)] }

/-- Chain of `k` pointer layers over record `i`. -/
def ptrChain : Nat → Nat → CTy
  | 0, i => .record i
  | k + 1, i => .ptr (ptrChain k i)

/-- A one-record environment: a record whose fields are all
pointer-chains (of one or more pointers) back to the record itself. -/
def selfEnv (nm fp : String) (ln : Nat) (ks : List Nat) : RecordEnv :=
  [⟨nm, none, some 0, ks.map (fun k => ptrChain (k + 1) 0), some fp, "", ln⟩]

/-- Concrete self-referential record: `struct A that holds an A pointer`. -/
def envA : RecordEnv := selfEnv "A" "a.h" 1 [0]

/-- Concrete mutually-referential records: `A` holds a `B` pointer and `B`
holds an `A` pointer. -/
def envAB : RecordEnv :=
  [⟨"A", none, some 0, [.ptr (.record 1)], some "f.h", "", 1⟩,
   ⟨"B", none, some 1, [.ptr (.record 0)], some "f.h", "", 5⟩]

/-- Concrete anonymous record (empty declared name, no anonymous-typedef
link) reachable only through a named alias. -/
def envPt : RecordEnv := [⟨"", none, some 0, [], none, "pt.h line 3", 3⟩]

/-- Concrete declaration input. -/
def d0 : DeclInfo := ⟨"f", "int f();", some "d.h", "", 2⟩

/-- Concrete declaration input with an empty resolved name. -/
def dEmpty : DeclInfo := ⟨"", "struct ...;", some "d.h", "", 7⟩

/-- Concrete enum input with one enumerator whose 8-bit pattern is the
two's-complement encoding of -1. -/
def e0 : EnumInfo := ⟨"E", some "e.h", "", 4, [("NEG", ⟨8, 255⟩)]⟩

/-- Concrete enum input with an empty name. -/
def eAnon : EnumInfo := ⟨"", some "e.h", "", 9, [("X", ⟨8, 1⟩)]⟩

/-- A string avoiding the `+` key separator. -/
def plusFree (s : String) : Prop := '+' ∉ s.data

instance : DecidablePred plusFree := fun s => inferInstanceAs (Decidable ('+' ∉ s.data))

/-! ### Order and insertion lemmas -/

theorem charListLt_irrefl : ∀ as, charListLt as as = false
  | [] => rfl
  | a :: as => by simp [charListLt, charListLt_irrefl as]

theorem charListLt_trans :
    ∀ as bs cs, charListLt as bs = true → charListLt bs cs = true → charListLt as cs = true
  | [], _ :: _, _ :: _, _, _ => rfl
  | [], [], _, h, _ => by simp [charListLt] at h
  | _ :: _, [], _, h, _ => by simp [charListLt] at h
  | _ :: _, _ :: _, [], _, h => by simp [charListLt] at h
  | a :: as, b :: bs, c :: cs, h1, h2 => by
      simp only [charListLt] at h1 h2 ⊢
      rcases lt_trichotomy a b with hab | hab | hab
      · rcases lt_trichotomy b c with hbc | hbc | hbc
        · simp [lt_trans hab hbc]
        · subst hbc; simp [hab]
        · exfalso
          simp [if_neg (asymm hbc), if_pos hbc] at h2
      · subst hab
        rcases lt_trichotomy a c with hac | hac | hac
        · simp [hac]
        · subst hac
          rw [if_neg (lt_irrefl a), if_neg (lt_irrefl a)] at h1 h2 ⊢
          exact charListLt_trans as bs cs h1 h2
        · exfalso
          simp [if_neg (asymm hac), if_pos hac] at h2
      · exfalso
        simp [if_neg (asymm hab), if_pos hab] at h1

theorem charListLt_total :
    ∀ as bs, charListLt as bs = true ∨ as = bs ∨ charListLt bs as = true
  | [], [] => Or.inr (Or.inl rfl)
  | [], _ :: _ => Or.inl rfl
  | _ :: _, [] => Or.inr (Or.inr rfl)
  | a :: as, b :: bs => by
      rcases lt_trichotomy a b with hab | hab | hab
      · exact Or.inl (by simp [charListLt, hab])
      · subst hab
        rcases charListLt_total as bs with h | h | h
        · exact Or.inl (by simp [charListLt, h])
        · exact Or.inr (Or.inl (by rw [h]))
        · exact Or.inr (Or.inr (by simp [charListLt, h]))
      · exact Or.inr (Or.inr (by simp [charListLt, hab]))

theorem strLt_irrefl (a : String) : strLt a a = false := charListLt_irrefl a.data

theorem strLt_trans {a b c : String} (h1 : strLt a b = true) (h2 : strLt b c = true) :
    strLt a c = true := charListLt_trans a.data b.data c.data h1 h2

theorem strLt_ne {a b : String} (h : strLt a b = true) : a ≠ b := by
  intro he; subst he; rw [strLt_irrefl a] at h; exact Bool.false_ne_true h

theorem strLt_of_not_of_ne {a b : String} (h1 : ¬ strLt a b = true) (h2 : a ≠ b) :
    strLt b a = true := by
  rcases charListLt_total a.data b.data with h | h | h
  · exact absurd h h1
  · exact absurd (String.ext h) h2
  · exact h

theorem mem_insertStr (x y : String) : ∀ l, y ∈ insertStr x l ↔ y = x ∨ y ∈ l
  | [] => by simp [insertStr]
  | z :: zs => by
      simp only [insertStr]
      split
      · simp [List.mem_cons, or_comm, or_assoc, or_left_comm]
      · split
        · rename_i hlt heq
          subst heq
          simp [List.mem_cons]
        · simp [List.mem_cons, mem_insertStr x y zs]
          tauto

theorem mem_insertStr_self (x : String) (l : List String) : x ∈ insertStr x l := by
  rw [mem_insertStr]; exact Or.inl rfl

theorem mem_insertStr_of_mem (x : String) {y : String} {l : List String} (h : y ∈ l) :
    y ∈ insertStr x l := by
  rw [mem_insertStr]; exact Or.inr h

/-- Sorted, in the strict `std::set` key order. -/
def SortedStr (l : List String) : Prop := List.Pairwise (fun a b => strLt a b = true) l

theorem sortedStr_insertStr (x : String) : ∀ {l}, SortedStr l → SortedStr (insertStr x l)
  | [], _ => by simp [insertStr, SortedStr]
  | y :: ys, h => by
      rcases (List.pairwise_cons.mp h) with ⟨hy, hys⟩
      simp only [insertStr]
      split
      · rename_i hlt
        exact List.pairwise_cons.mpr
          ⟨by
            intro b hb
            rcases List.mem_cons.mp hb with rfl | hb
            · exact hlt
            · exact strLt_trans hlt (hy b hb), h⟩
      · split
        · exact h
        · rename_i hnlt hne
          have hyx : strLt y x = true := strLt_of_not_of_ne hnlt hne
          exact List.pairwise_cons.mpr
            ⟨by
              intro b hb
              rcases (mem_insertStr x b ys).mp hb with rfl | hb
              · exact hyx
              · exact hy b hb, sortedStr_insertStr x hys⟩

theorem sortedStr_nodup : ∀ {l}, SortedStr l → l.Nodup := by
  intro l h
  exact List.Pairwise.imp (fun hab => strLt_ne hab) h

theorem insertStr_idem (x : String) : ∀ l, insertStr x (insertStr x l) = insertStr x l
  | [] => by simp [insertStr, strLt_irrefl]
  | y :: ys => by
      simp only [insertStr]
      split
      · simp [insertStr, strLt_irrefl]
      · split
        · rename_i hlt heq
          simp [insertStr, heq, strLt_irrefl]
        · rename_i hlt heq
          simp [insertStr, hlt, heq, insertStr_idem x ys]

/-! ### Walker invariants -/

theorem walkList_visited_sub {g} (hg : ∀ t n v x, x ∈ v → x ∈ (g t n v).2) :
    ∀ ts n v x, x ∈ v → x ∈ (walkList g ts n v).2 := by
  intro ts
  induction ts with
  | nil => intro n v x hx; simpa [walkList] using hx
  | cons t ts ih =>
      intro n v x hx
      simp only [walkList]
      exact ih _ _ x (hg t n v x hx)

theorem recordStep_visited_sub {g} (hg : ∀ t n v x, x ∈ v → x ∈ (g t n v).2)
    (env : RecordEnv) (i : Nat) (a : String) (n : List String) (v : List Nat)
    (x : Nat) (hx : x ∈ v) : x ∈ (recordStep g env i a n v).2 := by
  simp only [recordStep]
  cases hdef : (env.getD i default).defnIdx with
  | none => exact hx
  | some d =>
      by_cases hv : d ∈ v
      · simp only [if_pos hv]; exact hx
      · simp only [if_neg hv]
        exact walkList_visited_sub hg _ _ _ x (List.mem_cons_of_mem _ hx)

theorem walkF_visited_sub (env : RecordEnv) :
    ∀ f t n v x, x ∈ v → x ∈ (walkF env f t n v).2 := by
  intro f
  induction f with
  | zero => intro t n v x hx; simpa [walkF] using hx
  | succ f ih =>
      intro t n v x hx
      cases t with
      | ptr u => simpa [walkF, getCanonicalType] using ih u n v x hx
      | arr u => simpa [walkF, getCanonicalType] using ih u n v x hx
      | elaborated u => simpa [walkF, getCanonicalType] using ih u n v x hx
      | aliasTy a u =>
          cases u with
          | record i =>
              simp only [walkF, getCanonicalType]
              exact recordStep_visited_sub (fun t n v x hx => ih t n v x hx) env i a n v x hx
          | ptr w => simpa [walkF, getCanonicalType] using ih (.ptr w) n v x hx
          | arr w => simpa [walkF, getCanonicalType] using ih (.arr w) n v x hx
          | elaborated w => simpa [walkF, getCanonicalType] using ih (.elaborated w) n v x hx
          | aliasTy b w => simpa [walkF, getCanonicalType] using ih (.aliasTy b w) n v x hx
          | scalar => simpa [walkF, getCanonicalType] using ih .scalar n v x hx
      | record i =>
          simp only [walkF, getCanonicalType]
          exact recordStep_visited_sub (fun t n v x hx => ih t n v x hx) env i "" n v x hx
      | scalar => simpa [walkF, getCanonicalType] using hx

theorem walkList_nested_sub {g} (hg : ∀ t n v x, x ∈ n → x ∈ (g t n v).1) :
    ∀ ts n v x, x ∈ n → x ∈ (walkList g ts n v).1 := by
  intro ts
  induction ts with
  | nil => intro n v x hx; simpa [walkList] using hx
  | cons t ts ih =>
      intro n v x hx
      simp only [walkList]
      exact ih _ _ x (hg t n v x hx)

theorem recordStep_nested_sub {g} (hg : ∀ t n v x, x ∈ n → x ∈ (g t n v).1)
    (env : RecordEnv) (i : Nat) (a : String) (n : List String) (v : List Nat)
    (x : String) (hx : x ∈ n) : x ∈ (recordStep g env i a n v).1 := by
  simp only [recordStep]
  have hx1 : x ∈ (if resolveNestedName env i a = "" then n
      else insertStr (resolveNestedName env i a) n) := by
    split
    · exact hx
    · exact mem_insertStr_of_mem _ hx
  cases hdef : (env.getD i default).defnIdx with
  | none => exact hx1
  | some d =>
      by_cases hv : d ∈ v
      · simp only [if_pos hv]; exact hx1
      · simp only [if_neg hv]
        exact walkList_nested_sub hg _ _ _ x hx1

theorem walkF_nested_sub (env : RecordEnv) :
    ∀ f t n v x, x ∈ n → x ∈ (walkF env f t n v).1 := by
  intro f
  induction f with
  | zero => intro t n v x hx; simpa [walkF] using hx
  | succ f ih =>
      intro t n v x hx
      cases t with
      | ptr u => simpa [walkF, getCanonicalType] using ih u n v x hx
      | arr u => simpa [walkF, getCanonicalType] using ih u n v x hx
      | elaborated u => simpa [walkF, getCanonicalType] using ih u n v x hx
      | aliasTy a u =>
          cases u with
          | record i =>
              simp only [walkF, getCanonicalType]
              exact recordStep_nested_sub (fun t n v x hx => ih t n v x hx) env i a n v x hx
          | ptr w => simpa [walkF, getCanonicalType] using ih (.ptr w) n v x hx
          | arr w => simpa [walkF, getCanonicalType] using ih (.arr w) n v x hx
          | elaborated w => simpa [walkF, getCanonicalType] using ih (.elaborated w) n v x hx
          | aliasTy b w => simpa [walkF, getCanonicalType] using ih (.aliasTy b w) n v x hx
          | scalar => simpa [walkF, getCanonicalType] using ih .scalar n v x hx
      | record i =>
          simp only [walkF, getCanonicalType]
          exact recordStep_nested_sub (fun t n v x hx => ih t n v x hx) env i "" n v x hx
      | scalar => simpa [walkF, getCanonicalType] using hx

theorem walkList_sorted {g} (hg : ∀ t n v, SortedStr n → SortedStr (g t n v).1) :
    ∀ ts n v, SortedStr n → SortedStr (walkList g ts n v).1 := by
  intro ts
  induction ts with
  | nil => intro n v hn; simpa [walkList] using hn
  | cons t ts ih =>
      intro n v hn
      simp only [walkList]
      exact ih _ _ (hg t n v hn)

theorem recordStep_sorted {g} (hg : ∀ t n v, SortedStr n → SortedStr (g t n v).1)
    (env : RecordEnv) (i : Nat) (a : String) (n : List String) (v : List Nat)
    (hn : SortedStr n) : SortedStr (recordStep g env i a n v).1 := by
  simp only [recordStep]
  have hn1 : SortedStr (if resolveNestedName env i a = "" then n
      else insertStr (resolveNestedName env i a) n) := by
    split
    · exact hn
    · exact sortedStr_insertStr _ hn
  cases hdef : (env.getD i default).defnIdx with
  | none => exact hn1
  | some d =>
      by_cases hv : d ∈ v
      · simp only [if_pos hv]; exact hn1
      · simp only [if_neg hv]
        exact walkList_sorted hg _ _ _ hn1

theorem walkF_sorted (env : RecordEnv) :
    ∀ f t n v, SortedStr n → SortedStr (walkF env f t n v).1 := by
  intro f
  induction f with
  | zero => intro t n v hn; simpa [walkF] using hn
  | succ f ih =>
      intro t n v hn
      cases t with
      | ptr u => simpa [walkF, getCanonicalType] using ih u n v hn
      | arr u => simpa [walkF, getCanonicalType] using ih u n v hn
      | elaborated u => simpa [walkF, getCanonicalType] using ih u n v hn
      | aliasTy a u =>
          cases u with
          | record i =>
              simp only [walkF, getCanonicalType]
              exact recordStep_sorted (fun t n v hn => ih t n v hn) env i a n v hn
          | ptr w => simpa [walkF, getCanonicalType] using ih (.ptr w) n v hn
          | arr w => simpa [walkF, getCanonicalType] using ih (.arr w) n v hn
          | elaborated w => simpa [walkF, getCanonicalType] using ih (.elaborated w) n v hn
          | aliasTy b w => simpa [walkF, getCanonicalType] using ih (.aliasTy b w) n v hn
          | scalar => simpa [walkF, getCanonicalType] using ih .scalar n v hn
      | record i =>
          simp only [walkF, getCanonicalType]
          exact recordStep_sorted (fun t n v hn => ih t n v hn) env i "" n v hn
      | scalar => simpa [walkF, getCanonicalType] using hn

/-! ### Termination measure -/

theorem one_le_tySize (t : CTy) : 1 ≤ tySize t := by
  cases t <;> simp [tySize]

theorem le_fieldsMax {t : CTy} : ∀ {fs : List CTy}, t ∈ fs → tySize t ≤ fieldsMax fs := by
  intro fs
  induction fs with
  | nil => intro h; cases h
  | cons u us ih =>
      intro h
      rcases List.mem_cons.mp h with rfl | h
      · exact le_max_left _ _
      · exact le_trans (ih h) (le_max_right _ _)

theorem foldr_max_mem {α : Type} (f : α → Nat) {x : α} :
    ∀ {l : List α}, x ∈ l → f x ≤ l.foldr (fun y m => max (f y) m) 0 := by
  intro l
  induction l with
  | nil => intro h; cases h
  | cons u us ih =>
      intro h
      rcases List.mem_cons.mp h with rfl | h
      · exact le_max_left _ _
      · exact le_trans (ih h) (le_max_right _ _)

theorem mfs_le_mfsAll (env : RecordEnv) {i : Nat} (h : i < env.length) :
    mfs env i ≤ mfsAll env :=
  foldr_max_mem (mfs env) (List.mem_range.mpr h)

theorem envR_anti (env : RecordEnv) {v v' : List Nat} (h : ∀ x ∈ v, x ∈ v') :
    envR env v' ≤ envR env v := by
  unfold envR
  apply Finset.sum_le_sum_of_subset
  intro i hi
  simp only [Finset.mem_filter, Finset.mem_range] at hi ⊢
  exact ⟨hi.1, fun hx => hi.2 (h i hx)⟩

theorem envR_cons (env : RecordEnv) (d : Nat) (v : List Nat)
    (hv : d ∉ v) (hlen : d < env.length) :
    envR env (d :: v) + (1 + mfs env d) = envR env v := by
  unfold envR
  have hset : (Finset.range env.length).filter (fun i => i ∉ d :: v)
      = ((Finset.range env.length).filter (fun i => i ∉ v)).erase d := by
    ext j
    simp only [Finset.mem_filter, Finset.mem_erase, Finset.mem_range, List.mem_cons, not_or]
    tauto
  rw [hset]
  exact Finset.sum_erase_add _ _ (by
    simp only [Finset.mem_filter, Finset.mem_range]
    exact ⟨hlen, hv⟩)

/-! ### Fuel stabilization: the termination argument -/

theorem walkList_stab (env : RecordEnv) (f1 f2 : Nat)
    (sih : ∀ t n v, tySize t + envR env v ≤ f1 → tySize t + envR env v ≤ f2 →
      walkF env f1 t n v = walkF env f2 t n v)
    (B : Nat) :
    ∀ ts n v, (∀ t ∈ ts, tySize t ≤ B) → B + envR env v ≤ f1 → B + envR env v ≤ f2 →
      walkList (walkF env f1) ts n v = walkList (walkF env f2) ts n v := by
  intro ts
  induction ts with
  | nil => intro n v _ _ _; rfl
  | cons t ts ih =>
      intro n v hts hf1 hf2
      have htB : tySize t ≤ B := hts t (List.mem_cons_self t ts)
      have h1 : tySize t + envR env v ≤ f1 := le_trans (by omega) hf1
      have h2 : tySize t + envR env v ≤ f2 := le_trans (by omega) hf2
      have heq := sih t n v h1 h2
      simp only [walkList]
      rw [heq]
      have hsub : ∀ x ∈ v, x ∈ (walkF env f2 t n v).2 :=
        fun x hx => walkF_visited_sub env f2 t n v x hx
      have hR : envR env (walkF env f2 t n v).2 ≤ envR env v := envR_anti env hsub
      exact ih _ _ (fun u hu => hts u (List.mem_cons_of_mem _ hu)) (by omega) (by omega)

theorem recordStep_stab (env : RecordEnv) (f1 f2 : Nat)
    (sih : ∀ t n v, tySize t + envR env v ≤ f1 → tySize t + envR env v ≤ f2 →
      walkF env f1 t n v = walkF env f2 t n v)
    (i : Nat) (a : String) (n : List String) (v : List Nat)
    (hf1 : envR env v ≤ f1) (hf2 : envR env v ≤ f2) :
    recordStep (walkF env f1) env i a n v = recordStep (walkF env f2) env i a n v := by
  simp only [recordStep]
  cases hdef : (env.getD i default).defnIdx with
  | none => rfl
  | some d =>
      by_cases hv : d ∈ v
      · simp only [if_pos hv]
      · simp only [if_neg hv]
        by_cases hlen : d < env.length
        · have hR := envR_cons env d v hv hlen
          apply walkList_stab env f1 f2 sih (mfs env d)
          · exact fun t ht => le_fieldsMax ht
          · omega
          · omega
        · have hdd : env.getD d default = default :=
            List.getD_eq_default _ _ (by omega)
          rw [hdd]
          rfl

theorem walkF_stab (env : RecordEnv) :
    ∀ f1 f2 t n v, tySize t + envR env v ≤ f1 → tySize t + envR env v ≤ f2 →
      walkF env f1 t n v = walkF env f2 t n v := by
  intro f1
  induction f1 with
  | zero =>
      intro f2 t n v hf1 _
      have := one_le_tySize t
      omega
  | succ f1 ih =>
      intro f2 t n v hf1 hf2
      have ht := one_le_tySize t
      obtain ⟨f2', rfl⟩ : ∃ f2', f2 = f2' + 1 := ⟨f2 - 1, by omega⟩
      have sih : ∀ t n v, tySize t + envR env v ≤ f1 → tySize t + envR env v ≤ f2' →
          walkF env f1 t n v = walkF env f2' t n v :=
        fun t n v h1 h2 => ih f2' t n v h1 h2
      cases t with
      | ptr u =>
          simp only [walkF, getCanonicalType]
          exact sih u n v (by simp [tySize] at hf1; omega) (by simp [tySize] at hf2; omega)
      | arr u =>
          simp only [walkF, getCanonicalType]
          exact sih u n v (by simp [tySize] at hf1; omega) (by simp [tySize] at hf2; omega)
      | elaborated u =>
          simp only [walkF, getCanonicalType]
          exact sih u n v (by simp [tySize] at hf1; omega) (by simp [tySize] at hf2; omega)
      | aliasTy a u =>
          cases u with
          | record i =>
              simp only [walkF, getCanonicalType]
              apply recordStep_stab env f1 f2' sih i a n v
              · simp [tySize] at hf1; omega
              · simp [tySize] at hf2; omega
          | ptr w =>
              simp only [walkF, getCanonicalType]
              exact sih (.ptr w) n v (by simp [tySize] at hf1 ⊢; omega)
                (by simp [tySize] at hf2 ⊢; omega)
          | arr w =>
              simp only [walkF, getCanonicalType]
              exact sih (.arr w) n v (by simp [tySize] at hf1 ⊢; omega)
                (by simp [tySize] at hf2 ⊢; omega)
          | elaborated w =>
              simp only [walkF, getCanonicalType]
              exact sih (.elaborated w) n v (by simp [tySize] at hf1 ⊢; omega)
                (by simp [tySize] at hf2 ⊢; omega)
          | aliasTy b w =>
              simp only [walkF, getCanonicalType]
              exact sih (.aliasTy b w) n v (by simp [tySize] at hf1 ⊢; omega)
                (by simp [tySize] at hf2 ⊢; omega)
          | scalar =>
              simp only [walkF, getCanonicalType]
              exact sih .scalar n v (by simp [tySize] at hf1 ⊢; omega)
                (by simp [tySize] at hf2 ⊢; omega)
      | record i =>
          simp only [walkF, getCanonicalType]
          apply recordStep_stab env f1 f2' sih i "" n v
          · simp [tySize] at hf1; omega
          · simp [tySize] at hf2; omega
      | scalar =>
          simp only [walkF, getCanonicalType]

/-! ### Pointer chains and the self-referential record family -/

theorem tySize_ptrChain : ∀ k i, tySize (ptrChain k i) = k + 1
  | 0, _ => rfl
  | k + 1, i => by simp [ptrChain, tySize, tySize_ptrChain k i]

theorem walkF_ptrChain (env : RecordEnv) :
    ∀ (j f : Nat) (i : Nat) (n : List String) (v : List Nat), j + 1 ≤ f →
      walkF env f (ptrChain j i) n v = walkF env (f - j) (.record i) n v := by
  intro j
  induction j with
  | zero => intro f i n v _; simp [ptrChain]
  | succ j ih =>
      intro f i n v hf
      obtain ⟨f0, rfl⟩ : ∃ f0, f = f0 + 1 := ⟨f - 1, by omega⟩
      simp only [ptrChain, walkF, getCanonicalType]
      rw [ih f0 i n v (by omega)]
      congr 1
      omega

theorem walkF_record_visited (env : RecordEnv) (f i d : Nat) (n : List String) (v : List Nat)
    (hf : 1 ≤ f) (hdef : (env.getD i default).defnIdx = some d) (hd : d ∈ v) :
    walkF env f (.record i) n v =
      (if resolveNestedName env i "" = "" then n
       else insertStr (resolveNestedName env i "") n, v) := by
  obtain ⟨f0, rfl⟩ : ∃ f0, f = f0 + 1 := ⟨f - 1, by omega⟩
  simp only [walkF, getCanonicalType, recordStep, hdef, if_pos hd]

theorem selfEnv_getD (nm fp : String) (ln : Nat) (ks : List Nat) :
    (selfEnv nm fp ln ks).getD 0 default =
      ⟨nm, none, some 0, ks.map (fun k => ptrChain (k + 1) 0), some fp, "", ln⟩ := rfl

theorem selfEnv_resolveNested (nm fp : String) (ln : Nat) (ks : List Nat) (hnm : nm ≠ "") :
    resolveNestedName (selfEnv nm fp ln ks) 0 "" = nm := by
  simp [resolveNestedName, selfEnv, hnm]

theorem walkF_selfEnv_chain (nm fp : String) (ln : Nat) (ks : List Nat) (hnm : nm ≠ "")
    (k f : Nat) (n : List String) (v : List Nat) (hf : k + 2 ≤ f) (hv : 0 ∈ v) :
    walkF (selfEnv nm fp ln ks) f (ptrChain (k + 1) 0) n v = (insertStr nm n, v) := by
  rw [walkF_ptrChain _ (k + 1) f 0 n v (by omega)]
  rw [walkF_record_visited _ _ 0 0 n v (by omega) (by simp [selfEnv]) hv]
  rw [selfEnv_resolveNested nm fp ln ks hnm]
  rw [if_neg hnm]

theorem walkList_selfEnv (nm fp : String) (ln : Nat) (ks : List Nat) (hnm : nm ≠ "")
    (F : Nat) :
    ∀ (rest : List Nat) (n : List String) (v : List Nat), 0 ∈ v →
      (∀ k ∈ rest, k + 2 ≤ F) →
      walkList (walkF (selfEnv nm fp ln ks) F) (rest.map fun k => ptrChain (k + 1) 0)
        (insertStr nm n) v = (insertStr nm n, v) := by
  intro rest
  induction rest with
  | nil => intro n v _ _; rfl
  | cons k rest ih =>
      intro n v hv hks
      simp only [List.map_cons, walkList]
      rw [walkF_selfEnv_chain nm fp ln ks hnm k F (insertStr nm n) v
        (hks k (List.mem_cons_self k rest)) hv]
      rw [insertStr_idem]
      exact ih n v hv (fun k hk => hks k (List.mem_cons_of_mem _ hk))

theorem selfEnv_fuel (nm fp : String) (ln : Nat) (ks : List Nat) {k : Nat} (hk : k ∈ ks) :
    k + 2 ≤ emitFuel (selfEnv nm fp ln ks) := by
  have hmem : ptrChain (k + 1) 0 ∈ ks.map (fun k => ptrChain (k + 1) 0) :=
    List.mem_map.mpr ⟨k, hk, rfl⟩
  have h1 : tySize (ptrChain (k + 1) 0) ≤ mfs (selfEnv nm fp ln ks) 0 := le_fieldsMax hmem
  have h2 : mfs (selfEnv nm fp ln ks) 0 ≤ mfsAll (selfEnv nm fp ln ks) :=
    mfs_le_mfsAll _ (by simp [selfEnv])
  have h3 := tySize_ptrChain (k + 1) 0
  unfold emitFuel
  omega

/-! ### Key separator injectivity -/

theorem sep_split : ∀ (xs us ys vs : List Char),
    '+' ∉ xs → '+' ∉ us → xs ++ '+' :: ys = us ++ '+' :: vs → xs = us ∧ ys = vs := by
  intro xs
  induction xs with
  | nil =>
      intro us ys vs _ hus h
      cases us with
      | nil => simpa using h
      | cons c cs =>
          exfalso
          rw [List.nil_append, List.cons_append] at h
          injection h with h1 _
          exact hus (h1 ▸ List.mem_cons_self c cs)
  | cons x xs ih =>
      intro us ys vs hxs hus h
      cases us with
      | nil =>
          exfalso
          rw [List.nil_append, List.cons_append] at h
          injection h with h1 _
          exact hxs (h1 ▸ List.mem_cons_self x xs)
      | cons c cs =>
          rw [List.cons_append, List.cons_append] at h
          injection h with h1 h2
          subst h1
          have hxs' : '+' ∉ xs := fun hm => hxs (List.mem_cons_of_mem _ hm)
          have hus' : '+' ∉ cs := fun hm => hus (List.mem_cons_of_mem _ hm)
          obtain ⟨he, hy⟩ := ih cs ys vs hxs' hus' h2
          exact ⟨by rw [he], hy⟩

theorem make_key_data (f n t q : String) :
    (make_key f n t q).data = f.data ++ '+' :: (n.data ++ '+' :: (t.data ++ '+' :: q.data)) := by
  have hplus : ("+" : String).data = ['+'] := rfl
  simp [make_key, String.data_append, hplus]

/-! ### Sign extension -/

theorem getSExtValue_all_ones (w : Nat) (hw : 0 < w) : getSExtValue ⟨w, 2 ^ w - 1⟩ = -1 := by
  simp only [getSExtValue]
  have h1 : (1 : Nat) ≤ 2 ^ w := Nat.one_le_two_pow
  have hlt : 2 ^ w - 1 < 2 ^ w := by omega
  rw [Nat.mod_eq_of_lt hlt]
  have hpow : 2 ^ (w - 1) * 2 = 2 ^ w := by
    rw [← pow_succ]
    congr 1
    omega
  have h2 : (1 : Nat) ≤ 2 ^ (w - 1) := Nat.one_le_two_pow
  rw [if_neg (by omega)]
  push_cast [h1]
  ring

/-! ### Emitter case lemmas -/

theorem output_decl_skip (d : DeclInfo) (out : String) (tdf : Bool) (al : String)
    (st : EmitState) (h : make_key (declFilename d) d.name out al ∈ st.existing) :
    output_decl d out tdf al st = st := by
  simp only [output_decl]
  rw [if_pos h]

theorem output_decl_new (d : DeclInfo) (out : String) (tdf : Bool) (al : String)
    (st : EmitState) (h : make_key (declFilename d) d.name out al ∉ st.existing) :
    output_decl d out tdf al st =
      { existing := insertStr (make_key (declFilename d) d.name out al) st.existing,
        output := st.output ++
          [(out, OutFact.decl d.name d.source (declFilename d)
            (if tdf then some al else none))] } := by
  simp only [output_decl]
  rw [if_neg h]

theorem output_enum_skip_name (e : EnumInfo) (out : String) (st : EmitState)
    (hn : e.name = "") : output_enum_values e out st = st := by
  simp only [output_enum_values]
  rw [if_pos hn]

theorem output_enum_skip (e : EnumInfo) (out : String) (st : EmitState)
    (h : make_key3 (enumFilename e) e.name out ∈ st.existing) :
    output_enum_values e out st = st := by
  simp only [output_enum_values]
  by_cases hn : e.name = ""
  · rw [if_pos hn]
  · rw [if_neg hn, if_pos h]

theorem output_enum_new (e : EnumInfo) (out : String) (st : EmitState)
    (hn : e.name ≠ "") (h : make_key3 (enumFilename e) e.name out ∉ st.existing) :
    output_enum_values e out st =
      { existing := insertStr (make_key3 (enumFilename e) e.name out) st.existing,
        output := st.output ++
          [(out, OutFact.enumFact e.name
            (e.enumerators.map fun p => (p.1, getSExtValue p.2)))] } := by
  simp only [output_enum_values]
  rw [if_neg hn, if_neg h]

theorem output_rel_skip_name (env : RecordEnv) (i : Nat) (out sn : String) (st : EmitState)
    (hn : resolveStructName (env.getD i default) sn = "") :
    output_struct_relations env i out sn st = st := by
  simp only [output_struct_relations]
  rw [if_pos hn]

theorem output_rel_skip (env : RecordEnv) (i : Nat) (out sn : String) (st : EmitState)
    (h : make_key3 (recFilename (env.getD i default))
      (resolveStructName (env.getD i default) sn) out ∈ st.existing) :
    output_struct_relations env i out sn st = st := by
  simp only [output_struct_relations]
  by_cases hn : resolveStructName (env.getD i default) sn = ""
  · rw [if_pos hn]
  · rw [if_neg hn, if_pos h]

theorem output_rel_new (env : RecordEnv) (i : Nat) (out sn : String) (st : EmitState)
    (hn : resolveStructName (env.getD i default) sn ≠ "")
    (h : make_key3 (recFilename (env.getD i default))
      (resolveStructName (env.getD i default) sn) out ∉ st.existing) :
    output_struct_relations env i out sn st =
      { existing := insertStr (make_key3 (recFilename (env.getD i default))
          (resolveStructName (env.getD i default) sn) out) st.existing,
        output := st.output ++
          [(out, OutFact.relation (resolveStructName (env.getD i default) sn)
            ((walkList (walkF env (emitFuel env)) (env.getD i default).fields [] [i]).1))] } := by
  simp only [output_struct_relations]
  rw [if_neg hn, if_neg h]

theorem recordStep_mem_name {g} (hg : ∀ t n v x, x ∈ n → x ∈ (g t n v).1)
    (env : RecordEnv) (i : Nat) (a : String) (n : List String) (v : List Nat)
    (hne : resolveNestedName env i a ≠ "") :
    resolveNestedName env i a ∈ (recordStep g env i a n v).1 := by
  simp only [recordStep]
  have hx1 : resolveNestedName env i a ∈ (if resolveNestedName env i a = "" then n
      else insertStr (resolveNestedName env i a) n) := by
    rw [if_neg hne]
    exact mem_insertStr_self _ _
  cases hdef : (env.getD i default).defnIdx with
  | none => exact hx1
  | some d =>
      by_cases hv : d ∈ v
      · simp only [if_pos hv]; exact hx1
      · simp only [if_neg hv]
        exact walkList_nested_sub hg _ _ _ _ hx1

/-! ### Claim theorems -/

set_option maxRecDepth 8000

/-- Claim C1, counterexample: for the concrete self-referential record
`A` holding one `A`-pointer field, `output_struct_relations` emits the
relation fact mapping `"A"` to `["A"]` — the record's own name is in the
nested-name list — and not the fact `"A" maps to []` stated by the claim. -/
theorem self_reference_counterexample :
    (output_struct_relations envA 0 "out.json" "" ⟨[], []⟩).output
      = [("out.json", OutFact.relation "A" ["A"])]
    ∧ (output_struct_relations envA 0 "out.json" "" ⟨[], []⟩).output
      ≠ [("out.json", OutFact.relation "A" [])] :=
  ⟨by decide, by decide⟩

/-- Claim C1, amended: for every record whose fields are all pointer
chains back to the record itself, `output_struct_relations` emits the
relation fact mapping the record's name to the one-element list holding
that same name (the name is inserted before the visited-set check), and
the traversal terminates in bounded time: every fuel at least
`emitFuel` yields the same, already stable, walker result. -/
theorem self_reference_relation_amended :
    ∀ (nm fp out : String) (ln : Nat) (ks : List Nat) (st : EmitState),
      nm ≠ "" → ks ≠ [] →
      make_key3 (recFilename ((selfEnv nm fp ln ks).getD 0 default)) nm out ∉ st.existing →
      (output_struct_relations (selfEnv nm fp ln ks) 0 out "" st).output
        = st.output ++ [(out, OutFact.relation nm [nm])]
      ∧ ∀ f, emitFuel (selfEnv nm fp ln ks) ≤ f →
          walkList (walkF (selfEnv nm fp ln ks) f)
            ((selfEnv nm fp ln ks).getD 0 default).fields [] [0] = ([nm], [0]) := by
  intro nm fp out ln ks st hnm hks hkey
  have hres : resolveStructName ((selfEnv nm fp ln ks).getD 0 default) "" = nm := by
    simp [resolveStructName, selfEnv, hnm]
  have hres' : resolveStructName ((selfEnv nm fp ln ks).getD 0 default) "" ≠ "" := by
    rw [hres]; exact hnm
  have hkey' : make_key3 (recFilename ((selfEnv nm fp ln ks).getD 0 default))
      (resolveStructName ((selfEnv nm fp ln ks).getD 0 default) "") out ∉ st.existing := by
    rw [hres]; exact hkey
  have hwalk : ∀ F, (∀ k ∈ ks, k + 2 ≤ F) →
      walkList (walkF (selfEnv nm fp ln ks) F)
        ((selfEnv nm fp ln ks).getD 0 default).fields [] [0] = ([nm], [0]) := by
    intro F hF
    obtain ⟨k0, rest, rfl⟩ := List.exists_cons_of_ne_nil hks
    show walkList (walkF (selfEnv nm fp ln (k0 :: rest)) F)
      ((k0 :: rest).map fun k => ptrChain (k + 1) 0) [] [0] = ([nm], [0])
    simp only [List.map_cons, walkList]
    rw [walkF_selfEnv_chain nm fp ln (k0 :: rest) hnm k0 F [] [0]
      (hF k0 (List.mem_cons_self k0 rest)) (by simp)]
    exact walkList_selfEnv nm fp ln (k0 :: rest) hnm F rest [] [0] (by simp)
      (fun k hk => hF k (List.mem_cons_of_mem _ hk))
  constructor
  · rw [output_rel_new (selfEnv nm fp ln ks) 0 out "" st hres' hkey']
    rw [hres, hwalk (emitFuel (selfEnv nm fp ln ks)) (fun k hk => selfEnv_fuel nm fp ln ks hk)]
  · intro f hf
    exact hwalk f (fun k hk => le_trans (selfEnv_fuel nm fp ln ks hk) hf)

theorem self_reference_relation_amended_witness :
    (output_struct_relations (selfEnv "A" "a.h" 1 [0]) 0 "out.json" "" ⟨[], []⟩).output
      = [("out.json", OutFact.relation "A" ["A"])] := by
  have h := self_reference_relation_amended "A" "a.h" "out.json" 1 [0] ⟨[], []⟩
    (by decide) (by decide) (by decide)
  simpa using h.1

/-- Claim C2: in the Type Graph Walker, the alias name takes priority as
the nested name recorded for a field whose declared type is a named alias
of a record type, falling back to the record's own name, then to the
anonymous-typedef name; in particular a field of an anonymous record type
reachable only through the named alias `Point` contributes exactly
`"Point"`. -/
theorem alias_name_priority :
    (∀ (env : RecordEnv) (f i : Nat) (a : String) (n : List String) (v : List Nat),
      a ≠ "" → a ∈ (walkF env (f + 1) (.aliasTy a (.record i)) n v).1)
    ∧ (∀ (env : RecordEnv) (f i : Nat) (n : List String) (v : List Nat),
      (env.getD i default).name ≠ "" →
        (env.getD i default).name ∈ (walkF env (f + 1) (.aliasTy "" (.record i)) n v).1)
    ∧ (∀ (env : RecordEnv) (f i : Nat) (s : String) (n : List String) (v : List Nat),
      (env.getD i default).name = "" → (env.getD i default).anonName = some s → s ≠ "" →
        s ∈ (walkF env (f + 1) (.aliasTy "" (.record i)) n v).1)
    ∧ (walkF envPt 2 (.aliasTy "Point" (.record 0)) [] []).1 = ["Point"] := by
  refine ⟨?_, ?_, ?_, by decide⟩
  · intro env f i a n v ha
    simp only [walkF, getCanonicalType]
    have hres : resolveNestedName env i a = a := by
      simp [resolveNestedName, ha]
    have h := recordStep_mem_name (fun t n v x hx => walkF_nested_sub env f t n v x hx)
      env i a n v (by rw [hres]; exact ha)
    rw [hres] at h
    exact h
  · intro env f i n v hname
    simp only [walkF, getCanonicalType]
    have hres : resolveNestedName env i "" = (env.getD i default).name := by
      simp only [resolveNestedName, if_true]
      rw [if_neg hname]
    have h := recordStep_mem_name (fun t n v x hx => walkF_nested_sub env f t n v x hx)
      env i "" n v (by rw [hres]; exact hname)
    rw [hres] at h
    exact h
  · intro env f i s n v hname hanon hs
    simp only [walkF, getCanonicalType]
    have hres : resolveNestedName env i "" = s := by
      simp only [resolveNestedName, if_true]
      rw [if_pos hname, hanon]
      rfl
    have h := recordStep_mem_name (fun t n v x hx => walkF_nested_sub env f t n v x hx)
      env i "" n v (by rw [hres]; exact hs)
    rw [hres] at h
    exact h

theorem alias_name_priority_witness :
    ("Q" : String) ∈ (walkF envPt 1 (.aliasTy "Q" (.record 0)) [] []).1 :=
  alias_name_priority.1 envPt 0 0 "Q" [] [] (by decide)

/-- Claim C3: emission is idempotent per identity key.  For each of the
three emitters, a first call on a not-yet-claimed key appends exactly one
fact, and repeating the identical call leaves the state unchanged. -/
theorem emitters_idempotent :
    (∀ (d : DeclInfo) (out al : String) (tdf : Bool) (st : EmitState),
      make_key (declFilename d) d.name out al ∉ st.existing →
        (output_decl d out tdf al st).output = st.output ++
          [(out, OutFact.decl d.name d.source (declFilename d)
            (if tdf then some al else none))]
        ∧ output_decl d out tdf al (output_decl d out tdf al st) = output_decl d out tdf al st)
    ∧ (∀ (e : EnumInfo) (out : String) (st : EmitState),
      e.name ≠ "" → make_key3 (enumFilename e) e.name out ∉ st.existing →
        (output_enum_values e out st).output = st.output ++
          [(out, OutFact.enumFact e.name
            (e.enumerators.map fun p => (p.1, getSExtValue p.2)))]
        ∧ output_enum_values e out (output_enum_values e out st) = output_enum_values e out st)
    ∧ (∀ (env : RecordEnv) (i : Nat) (out sn : String) (st : EmitState),
      resolveStructName (env.getD i default) sn ≠ "" →
      make_key3 (recFilename (env.getD i default))
          (resolveStructName (env.getD i default) sn) out ∉ st.existing →
        (∃ l, (output_struct_relations env i out sn st).output = st.output ++
          [(out, OutFact.relation (resolveStructName (env.getD i default) sn) l)])
        ∧ output_struct_relations env i out sn (output_struct_relations env i out sn st)
            = output_struct_relations env i out sn st) := by
  refine ⟨?_, ?_, ?_⟩
  · intro d out al tdf st hk
    have h1 := output_decl_new d out tdf al st hk
    constructor
    · rw [h1]
    · have hmem : make_key (declFilename d) d.name out al
          ∈ (output_decl d out tdf al st).existing := by
        rw [h1]
        exact mem_insertStr_self _ _
      exact output_decl_skip d out tdf al _ hmem
  · intro e out st hn hk
    have h1 := output_enum_new e out st hn hk
    constructor
    · rw [h1]
    · have hmem : make_key3 (enumFilename e) e.name out
          ∈ (output_enum_values e out st).existing := by
        rw [h1]
        exact mem_insertStr_self _ _
      exact output_enum_skip e out _ hmem
  · intro env i out sn st hn hk
    have h1 := output_rel_new env i out sn st hn hk
    constructor
    · exact ⟨_, by rw [h1]⟩
    · have hmem : make_key3 (recFilename (env.getD i default))
          (resolveStructName (env.getD i default) sn) out
          ∈ (output_struct_relations env i out sn st).existing := by
        rw [h1]
        exact mem_insertStr_self _ _
      exact output_rel_skip env i out sn _ hmem

theorem emitters_idempotent_witness :
    output_decl d0 "o" false "" (output_decl d0 "o" false "" ⟨[], []⟩)
      = output_decl d0 "o" false "" ⟨[], []⟩ :=
  (emitters_idempotent.1 d0 "o" "" false ⟨[], []⟩ (by decide)).2

/-- Claim C4: the walker terminates on every finite record graph — its
fuel-indexed embedding is stable once the fuel reaches the explicit bound
`tySize t + envR env v`, each record definition being expanded at most
once per traversal — and on the mutually-referential pair `A`/`B` both
relation-emitter calls terminate with `"B"` in `A`'s nested list and
`"A"` in `B`'s. -/
theorem walker_terminates_mutual :
    (∀ (env : RecordEnv) (f1 f2 : Nat) (t : CTy) (n : List String) (v : List Nat),
      tySize t + envR env v ≤ f1 → tySize t + envR env v ≤ f2 →
        walkF env f1 t n v = walkF env f2 t n v)
    ∧ ((output_struct_relations envAB 0 "o" "" ⟨[], []⟩).output
        = [("o", OutFact.relation "A" ["A", "B"])] ∧ "B" ∈ ["A", "B"])
    ∧ ((output_struct_relations envAB 1 "o" "" ⟨[], []⟩).output
        = [("o", OutFact.relation "B" ["A", "B"])] ∧ "A" ∈ ["A", "B"]) :=
  ⟨fun env f1 f2 t n v h1 h2 => walkF_stab env f1 f2 t n v h1 h2,
   ⟨by decide, by decide⟩, ⟨by decide, by decide⟩⟩

theorem walker_terminates_mutual_witness :
    walkF envAB 8 (.record 0) [] [] = walkF envAB 20 (.record 0) [] [] :=
  walker_terminates_mutual.1 envAB 8 20 (.record 0) [] [] (by decide) (by decide)

/-- Claim C5, counterexample: two structurally distinct input tuples whose
identity keys coincide, because the `+`-separated concatenation does not
escape `+` occurring inside a component. -/
theorem make_key_collision :
    make_key "a" "b+c" "d" "" = make_key "a+b" "c" "d" ""
    ∧ (("a", "b+c", "d", "") : String × String × String × String)
        ≠ ("a+b", "c", "d", "") :=
  ⟨by decide, by decide⟩

/-- Claim C5, amended: the identity-key construction is a pure function —
structurally equal inputs give equal keys — and it is injective on inputs
whose location, name and target components avoid the `+` separator
character; unrestricted collision resistance fails (see the
counterexample). -/
theorem make_key_amended :
    (∀ f n t q f' n' t' q', f = f' ∧ n = n' ∧ t = t' ∧ q = q' →
      make_key f n t q = make_key f' n' t' q')
    ∧ (∀ f1 n1 t1 q1 f2 n2 t2 q2, plusFree f1 → plusFree n1 → plusFree t1 →
        plusFree f2 → plusFree n2 → plusFree t2 →
        make_key f1 n1 t1 q1 = make_key f2 n2 t2 q2 →
        f1 = f2 ∧ n1 = n2 ∧ t1 = t2 ∧ q1 = q2) := by
  constructor
  · rintro f n t q f' n' t' q' ⟨rfl, rfl, rfl, rfl⟩
    rfl
  · intro f1 n1 t1 q1 f2 n2 t2 q2 hf1 hn1 ht1 hf2 hn2 ht2 h
    have hd : (make_key f1 n1 t1 q1).data = (make_key f2 n2 t2 q2).data := by rw [h]
    rw [make_key_data, make_key_data] at hd
    obtain ⟨e1, hd⟩ := sep_split _ _ _ _ hf1 hf2 hd
    obtain ⟨e2, hd⟩ := sep_split _ _ _ _ hn1 hn2 hd
    obtain ⟨e3, hd⟩ := sep_split _ _ _ _ ht1 ht2 hd
    exact ⟨String.ext e1, String.ext e2, String.ext e3, String.ext hd⟩

theorem make_key_amended_witness :
    ("p" : String) = "p" ∧ ("x" : String) = "x" ∧ ("o" : String) = "o"
      ∧ ("q" : String) = "q" :=
  make_key_amended.2 "p" "x" "o" "q" "p" "x" "o" "q" (by decide) (by decide) (by decide)
    (by decide) (by decide) (by decide) (by decide)

/-- Claim C6: whenever `output_struct_relations` appends a relation fact,
its nested-name list is duplicate-free and sorted in the lexicographic
`std::set` order, for every environment, record, and traversal state. -/
theorem relation_list_sorted_nodup :
    ∀ (env : RecordEnv) (i : Nat) (out sn : String) (st : EmitState),
      (output_struct_relations env i out sn st).output = st.output
      ∨ ∃ rn l, (output_struct_relations env i out sn st).output
            = st.output ++ [(out, OutFact.relation rn l)]
          ∧ SortedStr l ∧ l.Nodup := by
  intro env i out sn st
  by_cases hn : resolveStructName (env.getD i default) sn = ""
  · left
    rw [output_rel_skip_name env i out sn st hn]
  · by_cases hk : make_key3 (recFilename (env.getD i default))
        (resolveStructName (env.getD i default) sn) out ∈ st.existing
    · left
      rw [output_rel_skip env i out sn st hk]
    · right
      have hs : SortedStr ((walkList (walkF env (emitFuel env))
          (env.getD i default).fields [] [i]).1) :=
        walkList_sorted (fun t n v h => walkF_sorted env (emitFuel env) t n v h) _ _ _
          List.Pairwise.nil
      exact ⟨resolveStructName (env.getD i default) sn, _,
        by rw [output_rel_new env i out sn st hn hk], hs, sortedStr_nodup hs⟩

/-- Claim C7: `output_enum_values` records each enumerator's signed value
exactly: an enumerator whose bit pattern is all ones at width `w` (the
two's-complement encoding of -1, for any width up to the 64-bit
`getSExtValue` range) is emitted as the integer -1, not as the unsigned
wrap-around value. -/
theorem enum_sign_preserved :
    ∀ (e : EnumInfo) (out : String) (st : EmitState) (nm : String) (w : Nat),
      e.name ≠ "" → make_key3 (enumFilename e) e.name out ∉ st.existing →
      0 < w → w ≤ 64 → (nm, ⟨w, 2 ^ w - 1⟩) ∈ e.enumerators →
      ∃ vs, (output_enum_values e out st).output
          = st.output ++ [(out, OutFact.enumFact e.name vs)]
        ∧ (nm, (-1 : Int)) ∈ vs := by
  intro e out st nm w hn hk hw _ hmem
  refine ⟨e.enumerators.map fun p => (p.1, getSExtValue p.2), ?_, ?_⟩
  · rw [output_enum_new e out st hn hk]
  · refine List.mem_map.mpr ⟨(nm, ⟨w, 2 ^ w - 1⟩), hmem, ?_⟩
    simp [getSExtValue_all_ones w hw]

theorem enum_sign_preserved_witness :
    ∃ vs, (output_enum_values e0 "o" ⟨[], []⟩).output
        = [] ++ [("o", OutFact.enumFact "E" vs)]
      ∧ ("NEG", (-1 : Int)) ∈ vs :=
  enum_sign_preserved e0 "o" ⟨[], []⟩ "NEG" 8 (by decide) (by decide) (by decide)
    (by decide) (by decide)

/-- Claim C8: when no record name can be resolved, or the enum name is
empty, the emitter call is a no-op: the state — dedup registry and
output — is returned unchanged. -/
theorem unresolvable_name_noop :
    (∀ (env : RecordEnv) (i : Nat) (out sn : String) (st : EmitState),
      resolveStructName (env.getD i default) sn = "" →
        output_struct_relations env i out sn st = st)
    ∧ (∀ (e : EnumInfo) (out : String) (st : EmitState),
      e.name = "" → output_enum_values e out st = st) :=
  ⟨fun env i out sn st hn => output_rel_skip_name env i out sn st hn,
   fun e out st hn => output_enum_skip_name e out st hn⟩

theorem unresolvable_name_noop_witness :
    output_struct_relations envPt 0 "o" "" ⟨[], []⟩ = ⟨[], []⟩
    ∧ output_enum_values eAnon "o" ⟨[], []⟩ = ⟨[], []⟩ :=
  ⟨unresolvable_name_noop.1 envPt 0 "o" "" ⟨[], []⟩ (by decide),
   unresolvable_name_noop.2 eAnon "o" ⟨[], []⟩ (by decide)⟩

/-- Claim C10: `output_decl` has no empty-name guard: on an empty resolved
name it still claims an identity key and appends a declaration fact whose
name field is the empty string. -/
theorem output_decl_empty_name :
    ∀ (d : DeclInfo) (out al : String) (tdf : Bool) (st : EmitState),
      d.name = "" → make_key (declFilename d) "" out al ∉ st.existing →
      (output_decl d out tdf al st).existing
          = insertStr (make_key (declFilename d) "" out al) st.existing
      ∧ (output_decl d out tdf al st).output
          = st.output ++ [(out, OutFact.decl "" d.source (declFilename d)
              (if tdf then some al else none))] := by
  intro d out al tdf st hn hk
  have hk' : make_key (declFilename d) d.name out al ∉ st.existing := by
    rw [hn]; exact hk
  rw [output_decl_new d out tdf al st hk', hn]
  exact ⟨rfl, rfl⟩

theorem output_decl_empty_name_witness :
    (output_decl dEmpty "o" false "" ⟨[], []⟩).existing
        = insertStr (make_key (declFilename dEmpty) "" "o" "") []
    ∧ (output_decl dEmpty "o" false "" ⟨[], []⟩).output
        = [] ++ [("o", OutFact.decl "" dEmpty.source (declFilename dEmpty)
            (if false then some "" else none))] :=
  output_decl_empty_name dEmpty "o" "" false ⟨[], []⟩ (by decide) (by decide)
